import Mathlib

set_option autoImplicit false

/-!
Verification development for the chunking engine of the Vector Knowledge Base
repository (backend/chunker.py).  The Python code is shallowly embedded below:
pure helper functions become Lean functions, the stateful packing loops become
tail-recursive functions with explicit accumulators, and the external
subword tokenizer is a parameter (tc : String -> Nat); its in-repository
fallback mode (counting whitespace-delimited words) is embedded concretely
as fallbackCount.  Python's ast.parse (standard library, outside the
repository) is likewise a parameter producing the list of top-level nodes
with their one-based line spans.
-/

namespace VKB

/-- Python whitespace test used by str.split, str.strip and the regex class
of whitespace; restricted to the six ASCII whitespace characters, which are
the ones relevant to the texts considered here. -/
def isSpaceChar (c : Char) : Bool :=
  c == ' ' || c == '\t' || c == '\n' || c == '\r' || c == '\x0b' || c == '\x0c'

/-- Sentence-end test: the character class [.!?] of the sentence-splitting
regex in code backend/chunker.py line 89. -/
def isSentEnd (c : Char) : Bool :=
  c == '.' || c == '!' || c == '?'

/-- Uppercase test: the character class [A-Z] of the sentence-splitting
regex. -/
def isUpperAZ (c : Char) : Bool :=
  decide ('A' ≤ c) && decide (c ≤ 'Z')

/-- Lookbehind test for the sentence-splitting regex: the previous character
exists and is one of [.!?]. -/
def prevIsSentEnd : Option Char → Bool
  | none => false
  | some c => isSentEnd c

/-- Head-of-list uppercase test, the lookahead of the first regex
alternative. -/
def headIsUpper : List Char → Bool
  | [] => false
  | c :: _ => isUpperAZ c

/-- Maximal whitespace run at the front of a character list. -/
def wsTake (cs : List Char) : List Char := cs.takeWhile isSpaceChar

/-- Remainder after the maximal whitespace run at the front. -/
def wsDrop (cs : List Char) : List Char := cs.dropWhile isSpaceChar

/-- Embedding of re.split with the sentence pattern of backend/chunker.py
line 89.  The scan keeps the previous character (for the lookbehind), the
characters of the piece accumulated so far (reversed), and the rest of the
input.  The first alternative matches a maximal whitespace run preceded by
[.!?] and followed by [A-Z]; the second alternative matches a whitespace run
preceded by [.!?] that reaches the end of the string (for this pattern that
is exactly the case in which the whole remaining input is whitespace), and a
zero-width match of the second alternative at the very end of the input
yields a final empty piece, as re.split does. -/
def splitSentRec (prev : Option Char) (acc : List Char) (cs : List Char) :
    List (List Char) :=
  match cs with
  | [] => if prevIsSentEnd prev then [acc.reverse, []] else [acc.reverse]
  | c :: rest =>
    if prevIsSentEnd prev then
      if hA : wsTake (c :: rest) ≠ [] ∧ headIsUpper (wsDrop (c :: rest)) then
        acc.reverse :: splitSentRec (some ((wsTake (c :: rest)).getLastD ' ')) []
          (wsDrop (c :: rest))
      else if (c :: rest).all isSpaceChar then
        [acc.reverse, []]
      else
        splitSentRec (some c) (c :: acc) rest
    else
      splitSentRec (some c) (c :: acc) rest
termination_by cs.length
decreasing_by
  · rename_i rest h
    have hdw : ∀ cs2 : List Char, (cs2.dropWhile isSpaceChar).length ≤ cs2.length := by
      intro cs2
      induction cs2 with
      | nil => simp
      | cons c2 rest2 ih =>
        rw [List.dropWhile_cons]
        split
        · exact le_trans ih (by simp)
        · simp
    simp only [wsTake, wsDrop] at *
    have hc : isSpaceChar c = true := by
      by_contra hc
      simp [List.takeWhile_cons, Bool.not_eq_true] at hA
      rcases hA with ⟨hA1, _⟩
      simp [hc] at hA1
    simp only [List.dropWhile_cons, hc, if_true]
    have := hdw rest
    simpa using Nat.lt_succ_of_le this
  · simp
  · simp

/-- Sentence segmentation, code backend/chunker.py line 89. -/
def splitSentences (text : String) : List String :=
  (splitSentRec none [] text.data).map fun cs => String.mk cs

/-- Characters of a string with leading and trailing whitespace removed,
modelling Python str.strip(). -/
def stripChars (cs : List Char) : List Char :=
  ((cs.dropWhile isSpaceChar).reverse.dropWhile isSpaceChar).reverse

/-- Python str.strip() on strings. -/
def stripWs (s : String) : String := String.mk (stripChars s.data)

/-- Stage A of the prose chunker: regex sentence split, then strip each
sentence and discard the ones that strip to nothing (code
backend/chunker.py lines 89 and 90). -/
def stageA (text : String) : List String :=
  (splitSentences text).filterMap fun s =>
    let t := stripWs s
    if t = "" then none else some t

/-- Whitespace splitting of Python str.split() with no argument: maximal
runs of non-whitespace characters, empty pieces never produced.  The second
argument accumulates the current word reversed. -/
def splitWsGo : List Char → List Char → List (List Char)
  | [], cur => if cur = [] then [] else [cur.reverse]
  | c :: rest, cur =>
    if isSpaceChar c then
      if cur = [] then splitWsGo rest [] else cur.reverse :: splitWsGo rest []
    else
      splitWsGo rest (c :: cur)

/-- Python text.split() with no argument. -/
def pySplitWs (s : String) : List String :=
  (splitWsGo s.data []).map fun cs => String.mk cs

/-- Fallback mode of Chunker._count_tokens (code backend/chunker.py line
31): the number of whitespace-delimited words. -/
def fallbackCount (s : String) : Nat := (pySplitWs s).length

/-- Hard model ceiling, Chunker.MAX_MODEL_TOKENS (code backend/chunker.py
line 17). -/
def MAX_MODEL_TOKENS : Nat := 500

/-- Effective ceiling of _split_oversized_text: the Python idiom
max_tokens or self.MAX_MODEL_TOKENS makes both None and 0 fall back to the
class constant (code backend/chunker.py line 38). -/
def effMaxTokens : Option Nat → Nat
  | none => MAX_MODEL_TOKENS
  | some n => if n = 0 then MAX_MODEL_TOKENS else n

/-- Python expression joining a list of strings with a single space,
as in the source. -/
def joinSp : List String → String
  | [] => ""
  | [w] => w
  | w :: ws => w ++ " " ++ joinSp ws

/-- Word-accumulation loop of _split_oversized_text (code
backend/chunker.py lines 49 to 59): flush the current piece when the next
word would push the running count over the ceiling and the piece is
nonempty, then append the word; any remaining words form a final piece. -/
def splitWordsLoop (tc : String → Nat) (maxTokens : Nat) :
    List String → List String → Nat → List String
  | [], currentPiece, _ =>
    if currentPiece = [] then [] else [joinSp currentPiece]
  | w :: ws, currentPiece, currentTokens =>
    if currentTokens + tc w > maxTokens ∧ currentPiece ≠ [] then
      joinSp currentPiece :: splitWordsLoop tc maxTokens ws [w] (tc w)
    else
      splitWordsLoop tc maxTokens ws (currentPiece ++ [w]) (currentTokens + tc w)

/-- Chunker._split_oversized_text (code backend/chunker.py lines 33 to 61),
parametrized by the token counter tc. -/
def splitOversizedText (tc : String → Nat) (text : String)
    (maxTokensArg : Option Nat) : List String :=
  let maxTokens := effMaxTokens maxTokensArg
  if tc text ≤ maxTokens then [text]
  else splitWordsLoop tc maxTokens (pySplitWs text) [] 0

/-- Stage B of the prose chunker (code backend/chunker.py lines 92 to 101):
sentences over the hard ceiling are replaced by the pieces of
_split_oversized_text called with MAX_MODEL_TOKENS. -/
def stageB (tc : String → Nat) (sentences : List String) : List String :=
  sentences.flatMap fun s =>
    if tc s > MAX_MODEL_TOKENS then splitOversizedText tc s (some MAX_MODEL_TOKENS)
    else [s]

/-- Values held in caller-supplied metadata: either an immutable string or a
reference to a mutable object in the store of section C5 below. -/
inductive PyVal where
  | str : String → PyVal
  | ref : Nat → PyVal
deriving DecidableEq

/-- Metadata dictionary at the value level: association list in insertion
order. -/
abbrev Meta := List (String × PyVal)

/-- Python dict.get on the metadata model. -/
def metaGet : Meta → String → Option PyVal
  | [], _ => none
  | (k2, v) :: rest, k => if k2 = k then some v else metaGet rest k

/-- Membership test metadata.get("language") in langs used by the
dispatcher (code backend/chunker.py lines 75 and 78); a missing key or a
non-string value is in no list. -/
def langIn (m : Meta) (langs : List String) : Bool :=
  match metaGet m "language" with
  | some (PyVal.str s) => langs.contains s
  | _ => false

/-- Value-level model of metadata.copy(): dictionaries are values here, so
the copy is the same value.  The store-level shallow-copy semantics of
dict.copy(), where the claims about mutation live, is modelled in the C5
section below. -/
def metaCopy (m : Meta) : Meta := m

/-- Chunk record emitted by every chunking path (dict with keys text,
chunk_index, token_count, metadata). -/
structure Chunk where
  text : String
  chunk_index : Nat
  token_count : Nat
  metadata : Meta
deriving DecidableEq

/-- Configuration of a Chunker instance (code backend/chunker.py line 19). -/
structure ChunkerConfig where
  chunk_size : Nat
  chunk_overlap : Nat

/-- Intermediate result of one pass of the chunk-building loop of
_chunk_prose: the accumulated unit list current_chunk, the cached per-unit
token counts current_chunk_tokens, and the running sum current_tokens. -/
structure ProsePiece where
  units : List String
  unitCounts : List Nat
  tokens : Nat
deriving DecidableEq

/-- Inner chunk-building loop of _chunk_prose (code backend/chunker.py
lines 115 to 125): walk the remaining (sentence, cached count) pairs,
stopping as soon as the next unit would push the running sum over
chunk_size while the chunk is nonempty. -/
def buildChunk (chunk_size : Nat) :
    List (String × Nat) → List String → List Nat → Nat →
      List String × List Nat × Nat
  | [], currentChunk, currentChunkTokens, currentTokens =>
    (currentChunk, currentChunkTokens, currentTokens)
  | (s, t) :: rest, currentChunk, currentChunkTokens, currentTokens =>
    if currentTokens + t > chunk_size ∧ currentChunk ≠ [] then
      (currentChunk, currentChunkTokens, currentTokens)
    else
      buildChunk chunk_size rest (currentChunk ++ [s])
        (currentChunkTokens ++ [t]) (currentTokens + t)

/-- Overlap backtracking loop of _chunk_prose (code backend/chunker.py
lines 140 to 149) over the reversed cached counts of the just-built chunk:
add the next count, stop returning the current rewind count when one more
rewind would reach the chunk length, otherwise rewind one unit and stop
when the accumulated overlap tokens reach chunk_overlap. -/
def overlapWalk (chunk_overlap chunkLen : Nat) :
    List Nat → Nat → Nat → Nat
  | [], _, overlap_sentences => overlap_sentences
  | t :: rest, overlap_tokens, overlap_sentences =>
    if overlap_sentences + 1 ≥ chunkLen then overlap_sentences
    else if overlap_tokens + t ≥ chunk_overlap then overlap_sentences + 1
    else overlapWalk chunk_overlap chunkLen rest (overlap_tokens + t)
      (overlap_sentences + 1)

/-- Number of trailing units rewound for overlap after a chunk whose cached
counts are currentChunkTokens. -/
def overlapCount (chunk_overlap : Nat) (currentChunkTokens : List Nat) : Nat :=
  overlapWalk chunk_overlap currentChunkTokens.length
    currentChunkTokens.reverse 0 0

/-- Outer packing loop of _chunk_prose (code backend/chunker.py lines 109
to 152), over the suffix of the zipped (sentence, cached count) list that
starts at the cursor: build a chunk, and if units remain past it, rewind
the cursor by the overlap count and continue; the cursor advance per
iteration is the chunk length minus the rewind count. -/
def packLoop (cfg : ChunkerConfig) (remaining : List (String × Nat)) :
    List ProsePiece :=
  match remaining with
  | [] => []
  | p :: rest =>
    match hb : buildChunk cfg.chunk_size (p :: rest) [] [] 0 with
    | (us, uts, tok) =>
      if (p :: rest).drop us.length = [] then [⟨us, uts, tok⟩]
      else
        ⟨us, uts, tok⟩ ::
          packLoop cfg
            ((p :: rest).drop (us.length - overlapCount cfg.chunk_overlap uts))
termination_by remaining.length
decreasing_by
  have hge : ∀ (rem : List (String × Nat)) (us2 : List String) (uts2 : List Nat)
      (tok2 : Nat), us2.length ≤ (buildChunk cfg.chunk_size rem us2 uts2 tok2).1.length := by
    intro rem
    induction rem with
    | nil => intro us2 uts2 tok2; simp [buildChunk]
    | cons q rest2 ih =>
      intro us2 uts2 tok2
      obtain ⟨s, t⟩ := q
      simp only [buildChunk]
      split
      · simp
      · have := ih (us2 ++ [s]) (uts2 ++ [t]) (tok2 + t)
        simp at this
        omega
  have hlenEq : ∀ (rem : List (String × Nat)) (us2 : List String) (uts2 : List Nat)
      (tok2 : Nat), us2.length = uts2.length →
      (buildChunk cfg.chunk_size rem us2 uts2 tok2).1.length =
        (buildChunk cfg.chunk_size rem us2 uts2 tok2).2.1.length := by
    intro rem
    induction rem with
    | nil => intro us2 uts2 tok2 h2; simpa [buildChunk] using h2
    | cons q rest2 ih =>
      intro us2 uts2 tok2 h2
      obtain ⟨s, t⟩ := q
      simp only [buildChunk]
      split
      · simpa using h2
      · exact ih (us2 ++ [s]) (uts2 ++ [t]) (tok2 + t) (by simp [h2])
  have hwalk : ∀ (rev : List Nat) (ot os : Nat), os < uts.length →
      overlapWalk cfg.chunk_overlap uts.length rev ot os < uts.length := by
    intro rev
    induction rev with
    | nil => intro ot os h2; simpa [overlapWalk] using h2
    | cons t rest2 ih =>
      intro ot os h2
      simp only [overlapWalk]
      split
      · exact h2
      · split
        · omega
        · exact ih (ot + t) (os + 1) (by omega)
  have hL : 1 ≤ us.length := by
    have h1 : 1 ≤ (buildChunk cfg.chunk_size (p :: rest) [] [] 0).1.length := by
      obtain ⟨s, t⟩ := p
      simp only [buildChunk, ne_eq, not_true_eq_false, and_false, if_false]
      have := hge rest [s] [t] (0 + t)
      simpa using this
    rw [hb] at h1
    exact h1
  have hEq : us.length = uts.length := by
    have h1 := hlenEq (p :: rest) [] [] 0 rfl
    rw [hb] at h1
    simpa using h1
  have hUts : 0 < uts.length := by omega
  have hr : overlapCount cfg.chunk_overlap uts < uts.length := by
    have := hwalk uts.reverse 0 0 hUts
    simpa [overlapCount] using this
  simp only [List.length_drop, List.length_cons]
  omega

/-- Chunk-record emission of _chunk_prose (code backend/chunker.py lines
128 to 133): each piece becomes a dict whose index is the number of chunks
already emitted, whose text joins the units with spaces, and whose metadata
is a copy of the caller metadata. -/
def toChunks (metadata : Meta) : Nat → List ProsePiece → List Chunk
  | _, [] => []
  | idx, piece :: ps =>
    { text := joinSp piece.units, chunk_index := idx,
      token_count := piece.tokens, metadata := metaCopy metadata } ::
      toChunks metadata (idx + 1) ps

/-- Unit-level result of _chunk_prose: stages A and B produce the unit
list, the cached counts sentence_token_counts are its image under tc (code
backend/chunker.py line 104), and the packing loop walks the zipped
(sentence, cached count) pairs. -/
def prosePieces (tc : String → Nat) (cfg : ChunkerConfig) (text : String) :
    List ProsePiece :=
  let sentences := stageB tc (stageA text)
  packLoop cfg (sentences.zip (sentences.map tc))

/-- Chunker._chunk_prose (code backend/chunker.py lines 83 to 154):
segmentation, oversized splitting, token-count caching, and greedy packing
with sliding-window overlap, emitted as chunk records. -/
def chunkProse (tc : String → Nat) (cfg : ChunkerConfig) (text : String)
    (metadata : Meta) : List Chunk :=
  toChunks metadata 0 (prosePieces tc cfg text)

/-- Top-level node of the Python abstract syntax tree with its one-based
source span (lineno, end_lineno) when it carries line information. -/
structure PyNode where
  span : Option (Nat × Nat)
deriving DecidableEq

/-- Python expression joining a list of strings with a single newline. -/
def joinNl : List String → String
  | [] => ""
  | [l] => l
  | l :: ls => l ++ "\n" ++ joinNl ls

/-- Split a character list at newline characters; n separators produce
n + 1 pieces. -/
def splitNlChars : List Char → List (List Char)
  | [] => [[]]
  | c :: rest =>
    if c = '\n' then [] :: splitNlChars rest
    else
      match splitNlChars rest with
      | [] => [[c]]
      | piece :: ps => (c :: piece) :: ps

/-- Python text.splitlines() for texts whose line separator is the newline
character: an empty text has no lines, and a trailing newline does not open
a final empty line. -/
def pySplitlines (s : String) : List String :=
  if s.data = [] then []
  else
    let ps := (splitNlChars s.data).map fun cs => String.mk cs
    if s.data.getLast? = some '\n' then ps.dropLast else ps

/-- Body loop of _chunk_python_code (code backend/chunker.py lines 169 to
204): per top-level node with line information, slice its lines, count its
tokens, flush the current chunk when the node would overflow chunk_size and
the current chunk is nonempty, then accumulate the node; nodes without line
information are skipped; any remaining lines are flushed at the end. -/
def chunkCodeLoop (tc : String → Nat) (chunk_size : Nat) (lines : List String)
    (metadata : Meta) :
    List PyNode → List Chunk → List String → Nat → List Chunk
  | [], chunks, currentChunkLines, currentTokenCount =>
    if currentChunkLines ≠ [] then
      chunks ++ [{ text := joinNl currentChunkLines,
                   chunk_index := chunks.length,
                   token_count := currentTokenCount,
                   metadata := metaCopy metadata }]
    else chunks
  | node :: rest, chunks, currentChunkLines, currentTokenCount =>
    match node.span with
    | some (lineno, endLineno) =>
      let nodeLines := (lines.drop (lineno - 1)).take (endLineno - (lineno - 1))
      let nodeTokens := tc (joinNl nodeLines)
      if currentTokenCount + nodeTokens > chunk_size ∧ currentChunkLines ≠ [] then
        chunkCodeLoop tc chunk_size lines metadata rest
          (chunks ++ [{ text := joinNl currentChunkLines,
                        chunk_index := chunks.length,
                        token_count := currentTokenCount,
                        metadata := metaCopy metadata }])
          nodeLines nodeTokens
      else
        chunkCodeLoop tc chunk_size lines metadata rest chunks
          (currentChunkLines ++ nodeLines) (currentTokenCount + nodeTokens)
    | none =>
      chunkCodeLoop tc chunk_size lines metadata rest chunks currentChunkLines
        currentTokenCount

/-- Chunker._chunk_python_code (code backend/chunker.py lines 156 to 211),
parametrized by the external parser: on success, structural chunking of the
top-level nodes; on a syntax error, the explicit fallback to _chunk_prose
on the raw text. -/
def chunkPythonCode (parsePy : String → Except Unit (List PyNode))
    (tc : String → Nat) (cfg : ChunkerConfig) (text : String)
    (metadata : Meta) : List Chunk :=
  match parsePy text with
  | Except.ok body =>
    chunkCodeLoop tc cfg.chunk_size (pySplitlines text) metadata body [] [] 0
  | Except.error _ => chunkProse tc cfg text metadata

/-- Chunker.chunk_text (code backend/chunker.py lines 63 to 81): empty text
yields no chunks; a declared language among the recognized code languages
marks the text as code, and only the Python languages take the structural
path; everything else takes the prose path. -/
def chunk_text (parsePy : String → Except Unit (List PyNode))
    (tc : String → Nat) (cfg : ChunkerConfig) (text : String)
    (metadata : Option Meta) : List Chunk :=
  if text = "" then []
  else
    let md := metadata.getD []
    let is_code := langIn md ["py", "js", "java", "cpp", "python", "javascript"]
    if is_code && langIn md ["py", "python"] then
      chunkPythonCode parsePy tc cfg text md
    else chunkProse tc cfg text md

/-- Default configuration of the module-level Chunker instance (code
backend/chunker.py lines 19 and 214). -/
def defaultConfig : ChunkerConfig := ⟨500, 50⟩

/-- Lines contributed by one top-level node: its source slice
lines[lineno - 1 : end_lineno] when it has line information, nothing when
it does not (code backend/chunker.py lines 171 to 174 and 192 to 194). -/
def nodeLinesOf (lines : List String) (node : PyNode) : List String :=
  match node.span with
  | some (l, e) => (lines.drop (l - 1)).take (e - (l - 1))
  | none => []

/-- Tiling condition on a node list: starting after line index s
(zero-based), every node carries a span, each span starts exactly one line
after the previous span ended, spans are nonempty, and the last span ends
at the final line.  Under this condition the top-level nodes cover every
line of the file, which is the situation in which the coverage claim about
the structural chunker can hold. -/
def spanTiles : Nat → List PyNode → Nat → Bool
  | s, [], total => s == total
  | s, node :: rest, total =>
    match node.span with
    | some (l, e) =>
      (l == s + 1) && decide (s < e) && decide (e ≤ total) && spanTiles e rest total
    | none => false

/-- Heap object of the Python store model for metadata aliasing: a
dictionary (ordered key-value pairs) or a mutable cell standing for any
nested mutable value (list, nested dict, and so on), observed through the
single string it currently holds. -/
inductive PyObj where
  | dict : List (String × PyVal) → PyObj
  | cell : String → PyObj
deriving DecidableEq

/-- Store of mutable Python objects; the address of an object is its index,
and allocation appends. -/
structure Store where
  objs : List PyObj
deriving DecidableEq

/-- Object at an address, when allocated. -/
def Store.get (σ : Store) (a : Nat) : Option PyObj := σ.objs[a]?

/-- Allocate a fresh object, returning the extended store and the new
address. -/
def Store.alloc (σ : Store) (o : PyObj) : Store × Nat :=
  (⟨σ.objs ++ [o]⟩, σ.objs.length)

/-- Overwrite the object at an allocated address. -/
def Store.setObj (σ : Store) (a : Nat) (o : PyObj) : Store :=
  ⟨σ.objs.set a o⟩

/-- Shallow copy of the dictionary at address d, as metadata.copy() creates
it: a new dict object holding the same key-value pairs, reference values
included, without copying the referenced objects. -/
def dictShallowCopy (σ : Store) (d : Nat) : PyObj :=
  (σ.get d).getD (PyObj.dict [])

/-- Store-level model of the per-chunk executions of metadata.copy() (code
backend/chunker.py lines 132, 185 and 203): one chunking call that emits n
chunks allocates n fresh shallow copies of the caller dictionary at d0 and
stores each new address in one chunk. -/
def allocCopies : Store → Nat → Nat → Store × List Nat
  | σ, _, 0 => (σ, [])
  | σ, d0, n + 1 =>
    let alloc1 := σ.alloc (dictShallowCopy σ d0)
    let rec2 := allocCopies alloc1.1 d0 n
    (rec2.1, alloc1.2 :: rec2.2)

/-- Value a reader sees for one metadata entry: a string directly, or the
current contents of the referenced mutable cell. -/
def resolveVal (σ : Store) : PyVal → String
  | PyVal.str s => s
  | PyVal.ref a =>
    match σ.get a with
    | some (PyObj.cell s) => s
    | _ => ""

/-- Full observable contents of the dictionary at address d: its key list
with every value resolved through the store. -/
def observe (σ : Store) (d : Nat) : List (String × String) :=
  match σ.get d with
  | some (PyObj.dict kvs) => kvs.map fun kv => (kv.1, resolveVal σ kv.2)
  | _ => []

/-- Python dict assignment on an association list: replace in place when
the key exists, append otherwise (insertion order preserved). -/
def assocSet : List (String × PyVal) → String → PyVal → List (String × PyVal)
  | [], k, v => [(k, v)]
  | (k2, v2) :: rest, k, v =>
    if k2 = k then (k, v) :: rest else (k2, v2) :: assocSet rest k v

/-- Top-level mutation of one chunk's metadata dictionary: set a key of the
dict object at address d. -/
def setKey (σ : Store) (d : Nat) (k : String) (v : PyVal) : Store :=
  match σ.get d with
  | some (PyObj.dict kvs) => σ.setObj d (PyObj.dict (assocSet kvs k v))
  | _ => σ

/-- Mutation of a nested mutable value: overwrite the contents of the cell
at address a. -/
def setCell (σ : Store) (a : Nat) (s : String) : Store :=
  match σ.get a with
  | some (PyObj.cell _) => σ.setObj a (PyObj.cell s)
  | _ => σ

/-- Concrete scene for the metadata-aliasing counterexample: the caller
dictionary at address 0 holds one key whose value is a reference to the
mutable cell at address 1. -/
def c5Store : Store := ⟨[PyObj.dict [("k", PyVal.ref 1)], PyObj.cell "v"]⟩

theorem buildChunk_take_spec (chunk_size : Nat) :
    ∀ (rem : List (String × Nat)) (us : List String) (uts : List Nat) (tok : Nat),
      ∃ n, n ≤ rem.length ∧
        buildChunk chunk_size rem us uts tok =
          (us ++ (rem.take n).map Prod.fst, uts ++ (rem.take n).map Prod.snd,
            tok + ((rem.take n).map Prod.snd).sum) := by
  intro rem
  induction rem with
  | nil =>
    intro us uts tok
    exact ⟨0, by simp, by simp [buildChunk]⟩
  | cons q rest ih =>
    intro us uts tok
    obtain ⟨s, t⟩ := q
    by_cases hcond : tok + t > chunk_size ∧ us ≠ []
    · refine ⟨0, by simp, ?_⟩
      simp [buildChunk, hcond]
    · obtain ⟨n, hn, heq⟩ := ih (us ++ [s]) (uts ++ [t]) (tok + t)
      refine ⟨n + 1, by simpa using hn, ?_⟩
      simp only [buildChunk, hcond, if_false]
      rw [heq]
      simp only [List.take_succ_cons, List.map_cons, List.sum_cons]
      refine Prod.ext ?_ (Prod.ext ?_ ?_) <;> simp <;> omega

theorem buildChunk_units_len (chunk_size : Nat) (rem : List (String × Nat))
    (us : List String) (uts : List Nat) (tok : Nat) :
    us.length ≤ (buildChunk chunk_size rem us uts tok).1.length := by
  obtain ⟨n, _, heq⟩ := buildChunk_take_spec chunk_size rem us uts tok
  rw [heq]
  simp

theorem buildChunk_len_eq2 (chunk_size : Nat) (rem : List (String × Nat))
    (us : List String) (uts : List Nat) (tok : Nat) (h : us.length = uts.length) :
    (buildChunk chunk_size rem us uts tok).1.length =
      (buildChunk chunk_size rem us uts tok).2.1.length := by
  obtain ⟨n, _, heq⟩ := buildChunk_take_spec chunk_size rem us uts tok
  rw [heq]
  simp [h]

theorem buildChunk_cons_pos (chunk_size : Nat) (q : String × Nat)
    (rest : List (String × Nat)) :
    1 ≤ (buildChunk chunk_size (q :: rest) [] [] 0).1.length := by
  obtain ⟨s, t⟩ := q
  simp only [buildChunk, ne_eq, not_true_eq_false, and_false, if_false]
  have := buildChunk_units_len chunk_size rest [s] [t] (0 + t)
  simpa using this

theorem buildChunk_budget (chunk_size : Nat) :
    ∀ (rem : List (String × Nat)) (us : List String) (uts : List Nat) (tok : Nat),
      tok = uts.sum → (2 ≤ us.length → tok ≤ chunk_size) →
      (buildChunk chunk_size rem us uts tok).2.2 =
          (buildChunk chunk_size rem us uts tok).2.1.sum ∧
        (2 ≤ (buildChunk chunk_size rem us uts tok).1.length →
          us.length = uts.length →
          (buildChunk chunk_size rem us uts tok).2.2 ≤ chunk_size) := by
  intro rem
  induction rem with
  | nil =>
    intro us uts tok hsum hok
    constructor
    · simpa [buildChunk] using hsum
    · intro h2 hlen
      simp only [buildChunk] at h2 ⊢
      exact hok (by omega)
  | cons q rest ih =>
    intro us uts tok hsum hok
    obtain ⟨s, t⟩ := q
    by_cases hcond : tok + t > chunk_size ∧ us ≠ []
    · simp only [buildChunk, if_pos hcond]
      constructor
      · exact hsum
      · intro h2 hlen
        have hus : 2 ≤ us.length := by simpa using h2
        exact hok hus
    · have hrec := ih (us ++ [s]) (uts ++ [t]) (tok + t)
        (by simp [hsum])
        (by
          intro h2
          simp only [List.length_append, List.length_cons, List.length_nil] at h2
          by_cases hus : us = []
          · subst hus
            simp at h2
          · have : ¬ tok + t > chunk_size := by
              intro hgt
              exact hcond ⟨hgt, hus⟩
            omega)
      simp only [buildChunk, if_neg hcond]
      constructor
      · exact hrec.1
      · intro h2 hlen
        exact hrec.2 h2 (by simp [hlen])

theorem buildChunk_absorb (chunk_size : Nat) :
    ∀ (front rest2 : List (String × Nat)) (us : List String) (uts : List Nat)
      (tok : Nat),
      (∀ j, j ≤ front.length → tok + ((front.take j).map Prod.snd).sum ≤ chunk_size) →
      buildChunk chunk_size (front ++ rest2) us uts tok =
        buildChunk chunk_size rest2 (us ++ front.map Prod.fst)
          (uts ++ front.map Prod.snd) (tok + (front.map Prod.snd).sum) := by
  intro front
  induction front with
  | nil =>
    intro rest2 us uts tok _
    simp
  | cons q front2 ih =>
    intro rest2 us uts tok hpref
    obtain ⟨s, t⟩ := q
    have ht : tok + t ≤ chunk_size := by
      have := hpref 1 (by simp)
      simpa using this
    have hcond : ¬ (tok + t > chunk_size ∧ us ≠ []) := by
      intro hc
      omega
    have hstep : buildChunk chunk_size (((s, t) :: front2) ++ rest2) us uts tok =
        buildChunk chunk_size (front2 ++ rest2) (us ++ [s]) (uts ++ [t]) (tok + t) := by
      simp only [List.cons_append, buildChunk, if_neg hcond]
      rfl
    rw [hstep, ih rest2 (us ++ [s]) (uts ++ [t]) (tok + t) ?_]
    · simp [List.append_assoc, Nat.add_assoc]
    · intro j hj
      have := hpref (j + 1) (by simpa using hj)
      simpa [Nat.add_assoc] using this

theorem overlapWalk_lt2 (chunk_overlap chunkLen : Nat) :
    ∀ (rev : List Nat) (ot os : Nat), os < chunkLen →
      overlapWalk chunk_overlap chunkLen rev ot os < chunkLen := by
  intro rev
  induction rev with
  | nil => intro ot os h; simpa [overlapWalk] using h
  | cons t rest ih =>
    intro ot os h
    simp only [overlapWalk]
    split
    · exact h
    · split
      · omega
      · exact ih (ot + t) (os + 1) (by omega)

theorem overlapCount_lt2 (chunk_overlap : Nat) (uts : List Nat) (h : uts ≠ []) :
    overlapCount chunk_overlap uts < uts.length := by
  have hlen : 0 < uts.length := List.length_pos.mpr h
  simpa [overlapCount] using
    overlapWalk_lt2 chunk_overlap uts.length uts.reverse 0 0 hlen

theorem sum_take_reverse (l : List Nat) (k : Nat) (hk : k ≤ l.length) :
    (l.reverse.take k).sum = (l.drop (l.length - k)).sum := by
  have hlen : (l.drop (l.length - k)).length = k := by
    simp only [List.length_drop]
    omega
  conv_lhs => rw [(List.take_append_drop (l.length - k) l).symm]
  rw [List.reverse_append]
  rw [List.take_append_of_le_length
    (by simp only [List.length_reverse, List.length_drop]; omega)]
  rw [List.take_of_length_le (by simp only [List.length_reverse, hlen]; omega)]
  rw [List.sum_reverse]

theorem overlapWalk_outcome (chunk_overlap L : Nat) :
    ∀ (rev : List Nat) (ot os : Nat), os + rev.length = L → os < L →
      overlapWalk chunk_overlap L rev ot os = L - 1 ∨
        ∃ k, 1 ≤ k ∧ k ≤ rev.length ∧
          overlapWalk chunk_overlap L rev ot os = os + k ∧
          chunk_overlap ≤ ot + (rev.take k).sum := by
  intro rev
  induction rev with
  | nil =>
    intro ot os hlen hos
    simp only [List.length_nil] at hlen
    omega
  | cons t rest ih =>
    intro ot os hlen hos
    simp only [overlapWalk]
    by_cases hcap : os + 1 ≥ L
    · rw [if_pos hcap]
      left
      omega
    · rw [if_neg hcap]
      by_cases htok : ot + t ≥ chunk_overlap
      · rw [if_pos htok]
        right
        refine ⟨1, le_refl 1, by simp, rfl, ?_⟩
        simpa using htok
      · rw [if_neg htok]
        have hrec := ih (ot + t) (os + 1)
          (by simp only [List.length_cons] at hlen; omega) (by omega)
        rcases hrec with h1 | ⟨k, hk1, hk2, hk3, hk4⟩
        · left
          exact h1
        · right
          refine ⟨k + 1, by omega, by simp; omega, by rw [hk3]; omega, ?_⟩
          simp only [List.take_succ_cons, List.sum_cons]
          omega

theorem overlapCount_outcome (chunk_overlap : Nat) (counts : List Nat)
    (h : counts ≠ []) :
    overlapCount chunk_overlap counts = counts.length - 1 ∨
      (1 ≤ overlapCount chunk_overlap counts ∧
        chunk_overlap ≤
          (counts.drop (counts.length - overlapCount chunk_overlap counts)).sum) := by
  have hlen : 0 < counts.length := List.length_pos.mpr h
  have hout := overlapWalk_outcome chunk_overlap counts.length counts.reverse 0 0
    (by simp) hlen
  rcases hout with h1 | ⟨k, hk1, hk2, hk3, hk4⟩
  · left
    simpa [overlapCount] using h1
  · right
    have hoc : overlapCount chunk_overlap counts = k := by
      simpa [overlapCount] using hk3
    rw [hoc]
    refine ⟨hk1, ?_⟩
    have hsum := sum_take_reverse counts k (by simpa using hk2)
    rw [← hsum]
    simpa using hk4

theorem overlapCount_min_bound (chunk_overlap : Nat) (counts : List Nat)
    (h : counts ≠ []) :
    min chunk_overlap ((counts.drop 1).sum) ≤
      (counts.drop (counts.length - overlapCount chunk_overlap counts)).sum := by
  have hlen : 0 < counts.length := List.length_pos.mpr h
  rcases overlapCount_outcome chunk_overlap counts h with h1 | ⟨_, h2⟩
  · rw [h1]
    have : counts.length - (counts.length - 1) = 1 := by omega
    rw [this]
    exact min_le_right _ _
  · exact le_trans (min_le_left _ _) h2

theorem map_snd_eq_map_tc (tc : String → Nat) :
    ∀ (l : List (String × Nat)), (∀ p ∈ l, p.2 = tc p.1) →
      l.map Prod.snd = (l.map Prod.fst).map tc := by
  intro l
  induction l with
  | nil => intro _; simp
  | cons q rest ih =>
    intro hc
    obtain ⟨s, t⟩ := q
    simp only [List.map_cons]
    have ht : t = tc s := hc (s, t) (by simp)
    rw [ht, ih (fun p hp => hc p (by simp [hp]))]

theorem zip_self_map_consistent (tc : String → Nat) (sentences : List String) :
    ∀ p ∈ sentences.zip (sentences.map tc), p.2 = tc p.1 := by
  induction sentences with
  | nil => intro p hp; simp at hp
  | cons s rest ih =>
    intro p hp
    simp only [List.map_cons, List.zip_cons_cons, List.mem_cons] at hp
    rcases hp with h1 | h2
    · rw [h1]
    · exact ih p h2

theorem packLoop_piece_spec (cfg : ChunkerConfig) (tc : String → Nat) :
    ∀ (rem : List (String × Nat)), (∀ p ∈ rem, p.2 = tc p.1) →
      ∀ piece ∈ packLoop cfg rem,
        piece.unitCounts = piece.units.map tc ∧
        piece.tokens = piece.unitCounts.sum ∧
        1 ≤ piece.units.length ∧
        piece.units.length = piece.unitCounts.length ∧
        (2 ≤ piece.units.length → piece.tokens ≤ cfg.chunk_size) := by
  refine packLoop.induct cfg
    (fun rem => (∀ p ∈ rem, p.2 = tc p.1) →
      ∀ piece ∈ packLoop cfg rem,
        piece.unitCounts = piece.units.map tc ∧
        piece.tokens = piece.unitCounts.sum ∧
        1 ≤ piece.units.length ∧
        piece.units.length = piece.unitCounts.length ∧
        (2 ≤ piece.units.length → piece.tokens ≤ cfg.chunk_size)) ?_ ?_ ?_
  · intro _ piece hp
    simp [packLoop] at hp
  · intro p rest us uts tok hb hdrop hcons piece hp
    have hp2 : piece = ProsePiece.mk us uts tok := by
      simp only [packLoop, hb, hdrop] at hp
      simpa [if_pos] using hp
    subst hp2
    obtain ⟨n, hn, heq⟩ := buildChunk_take_spec cfg.chunk_size (p :: rest) [] [] 0
    rw [hb] at heq
    have hus : us = ((p :: rest).take n).map Prod.fst := by
      have := congrArg Prod.fst heq
      simpa using this
    have huts : uts = ((p :: rest).take n).map Prod.snd := by
      have := congrArg (fun x => x.2.1) heq
      simpa using this
    have htok : tok = (((p :: rest).take n).map Prod.snd).sum := by
      have := congrArg (fun x => x.2.2) heq
      simpa using this
    have hlen1 : 1 ≤ us.length := by
      have := buildChunk_cons_pos cfg.chunk_size p rest
      rw [hb] at this
      simpa using this
    have hbudget := buildChunk_budget cfg.chunk_size (p :: rest) [] [] 0 rfl
      (by intro h2; simp at h2)
    rw [hb] at hbudget
    refine ⟨?_, ?_, hlen1, ?_, ?_⟩
    · rw [hus, huts]
      exact map_snd_eq_map_tc tc _ (fun q hq => hcons q (List.take_subset _ _ hq))
    · simpa using hbudget.1
    · rw [hus, huts]
      simp
    · intro h2
      simpa using hbudget.2 (by simpa using h2) rfl
  · intro p rest us uts tok hb hdrop ih hcons piece hp
    have hp2 : piece = ProsePiece.mk us uts tok ∨
        piece ∈ packLoop cfg
          ((p :: rest).drop (us.length - overlapCount cfg.chunk_overlap uts)) := by
      simp only [packLoop, hb, hdrop] at hp
      simpa [if_neg] using hp
    rcases hp2 with hp2 | hp2
    · subst hp2
      obtain ⟨n, hn, heq⟩ := buildChunk_take_spec cfg.chunk_size (p :: rest) [] [] 0
      rw [hb] at heq
      have hus : us = ((p :: rest).take n).map Prod.fst := by
        have := congrArg Prod.fst heq
        simpa using this
      have huts : uts = ((p :: rest).take n).map Prod.snd := by
        have := congrArg (fun x => x.2.1) heq
        simpa using this
      have hlen1 : 1 ≤ us.length := by
        have := buildChunk_cons_pos cfg.chunk_size p rest
        rw [hb] at this
        simpa using this
      have hbudget := buildChunk_budget cfg.chunk_size (p :: rest) [] [] 0 rfl
        (by intro h2; simp at h2)
      rw [hb] at hbudget
      refine ⟨?_, ?_, hlen1, ?_, ?_⟩
      · rw [hus, huts]
        exact map_snd_eq_map_tc tc _ (fun q hq => hcons q (List.take_subset _ _ hq))
      · simpa using hbudget.1
      · rw [hus, huts]
        simp
      · intro h2
        simpa using hbudget.2 (by simpa using h2) rfl
    · exact ih (fun q hq => hcons q (List.drop_subset _ _ hq)) piece hp2

theorem sum_take_le_sum (l : List Nat) (j : Nat) : (l.take j).sum ≤ l.sum := by
  have := List.sum_take_add_sum_drop l j
  omega

theorem sum_drop_le_sum (l : List Nat) (m : Nat) : (l.drop m).sum ≤ l.sum := by
  have := List.sum_take_add_sum_drop l m
  omega

theorem overlapCount_nil (chunk_overlap : Nat) : overlapCount chunk_overlap [] = 0 := by
  simp [overlapCount, overlapWalk]

theorem packLoop_head (cfg : ChunkerConfig) (q : String × Nat)
    (rest3 : List (String × Nat)) :
    (packLoop cfg (q :: rest3)).getD 0 ⟨[], [], 0⟩ =
      ⟨(buildChunk cfg.chunk_size (q :: rest3) [] [] 0).1,
        (buildChunk cfg.chunk_size (q :: rest3) [] [] 0).2.1,
        (buildChunk cfg.chunk_size (q :: rest3) [] [] 0).2.2⟩ := by
  rcases hb2 : buildChunk cfg.chunk_size (q :: rest3) [] [] 0 with ⟨us2, uts2, tok2⟩
  simp only [packLoop, hb2]
  split <;> simp

theorem packLoop_nil_iff (cfg : ChunkerConfig) (rem : List (String × Nat)) :
    packLoop cfg rem = [] ↔ rem = [] := by
  constructor
  · intro h
    cases rem with
    | nil => rfl
    | cons q rest3 =>
      rcases hb2 : buildChunk cfg.chunk_size (q :: rest3) [] [] 0 with ⟨us2, uts2, tok2⟩
      simp only [packLoop, hb2] at h
      split at h <;> simp at h
  · intro h
    subst h
    simp [packLoop]

theorem packLoop_step_overlap (cfg : ChunkerConfig) (p : String × Nat)
    (rest : List (String × Nat)) (us : List String) (uts : List Nat) (tok : Nat)
    (hb : buildChunk cfg.chunk_size (p :: rest) [] [] 0 = (us, uts, tok)) :
    ((packLoop cfg ((p :: rest).drop
          (us.length - overlapCount cfg.chunk_overlap uts))).getD 0
        ⟨[], [], 0⟩).units.take (overlapCount cfg.chunk_overlap uts) =
      us.drop (us.length - overlapCount cfg.chunk_overlap uts) := by
  by_cases hr : overlapCount cfg.chunk_overlap uts = 0
  · rw [hr]
    simp
  · obtain ⟨n, hn, heq⟩ := buildChunk_take_spec cfg.chunk_size (p :: rest) [] [] 0
    rw [hb] at heq
    have hus : us = ((p :: rest).take n).map Prod.fst := by
      have := congrArg Prod.fst heq
      simpa using this
    have huts : uts = ((p :: rest).take n).map Prod.snd := by
      have := congrArg (fun x => x.2.1) heq
      simpa using this
    have husl : us.length = n := by
      rw [hus]
      simp only [List.length_map, List.length_take]
      omega
    have hutsl : uts.length = n := by
      rw [huts]
      simp only [List.length_map, List.length_take]
      omega
    have hutsne : uts ≠ [] := by
      intro hnil
      rw [hnil, overlapCount_nil] at hr
      exact hr rfl
    have hr0lt : overlapCount cfg.chunk_overlap uts < n := by
      have := overlapCount_lt2 cfg.chunk_overlap uts hutsne
      omega
    set r0 := overlapCount cfg.chunk_overlap uts with hr0def
    have hn2 : 2 ≤ n := by omega
    have hbudget := buildChunk_budget cfg.chunk_size (p :: rest) [] [] 0 rfl
      (by intro h2; simp at h2)
    rw [hb] at hbudget
    have htoksum : tok = uts.sum := by simpa using hbudget.1
    have htokle : tok ≤ cfg.chunk_size := by
      have := hbudget.2 (by simp; omega) rfl
      simpa using this
    have hsplit : (p :: rest).drop (n - r0) =
        ((p :: rest).take n).drop (n - r0) ++ (p :: rest).drop n := by
      conv_lhs => rw [← List.take_append_drop n (p :: rest)]
      rw [List.drop_append_of_le_length]
      simp only [List.length_take]
      omega
    have hfront_snd : (((p :: rest).take n).drop (n - r0)).map Prod.snd =
        uts.drop (n - r0) := by
      rw [huts, List.map_drop]
    have hfront_fst : (((p :: rest).take n).drop (n - r0)).map Prod.fst =
        us.drop (n - r0) := by
      rw [hus, List.map_drop]
    have hfrontlen : (((p :: rest).take n).drop (n - r0)).length = r0 := by
      simp only [List.length_drop, List.length_take]
      omega
    have hpref : ∀ j, j ≤ (((p :: rest).take n).drop (n - r0)).length →
        0 + (((((p :: rest).take n).drop (n - r0)).take j).map Prod.snd).sum ≤
          cfg.chunk_size := by
      intro j _
      have h1 : ((((p :: rest).take n).drop (n - r0)).take j).map Prod.snd =
          ((((p :: rest).take n).drop (n - r0)).map Prod.snd).take j := by
        rw [List.map_take]
      rw [h1, hfront_snd]
      have h2 : ((uts.drop (n - r0)).take j).sum ≤ (uts.drop (n - r0)).sum :=
        sum_take_le_sum _ _
      have h3 : (uts.drop (n - r0)).sum ≤ uts.sum := sum_drop_le_sum _ _
      omega
    have habsorb := buildChunk_absorb cfg.chunk_size
      (((p :: rest).take n).drop (n - r0)) ((p :: rest).drop n) [] [] 0 hpref
    rw [← hsplit] at habsorb
    obtain ⟨m, hm, heq2⟩ := buildChunk_take_spec cfg.chunk_size
      ((p :: rest).drop n) ([] ++ (((p :: rest).take n).drop (n - r0)).map Prod.fst)
      ([] ++ (((p :: rest).take n).drop (n - r0)).map Prod.snd)
      (0 + ((((p :: rest).take n).drop (n - r0)).map Prod.snd).sum)
    have hdropne : (p :: rest).drop (n - r0) ≠ [] := by
      rw [hsplit]
      intro hnil
      have := congrArg List.length hnil
      simp only [List.length_append, hfrontlen, List.length_nil] at this
      omega
    obtain ⟨q, rest3, hq⟩ := List.exists_cons_of_ne_nil hdropne
    rw [husl, hq, packLoop_head, ← hq, habsorb, heq2]
    simp only [List.nil_append]
    rw [hfront_fst]
    have hlen2 : (us.drop (n - r0)).length = r0 := by
      simp only [List.length_drop]
      omega
    rw [List.take_append_of_le_length (by omega)]
    rw [List.take_of_length_le (by omega)]

theorem packLoop_consecutive (cfg : ChunkerConfig) :
    ∀ (rem : List (String × Nat)) (k : Nat),
      k + 1 < (packLoop cfg rem).length →
      ((packLoop cfg rem).getD (k + 1) ⟨[], [], 0⟩).units.take
          (overlapCount cfg.chunk_overlap
            (((packLoop cfg rem).getD k ⟨[], [], 0⟩).unitCounts)) =
        ((packLoop cfg rem).getD k ⟨[], [], 0⟩).units.drop
          (((packLoop cfg rem).getD k ⟨[], [], 0⟩).units.length -
            overlapCount cfg.chunk_overlap
              (((packLoop cfg rem).getD k ⟨[], [], 0⟩).unitCounts)) := by
  refine packLoop.induct cfg
    (fun rem => ∀ k, k + 1 < (packLoop cfg rem).length →
      ((packLoop cfg rem).getD (k + 1) ⟨[], [], 0⟩).units.take
          (overlapCount cfg.chunk_overlap
            (((packLoop cfg rem).getD k ⟨[], [], 0⟩).unitCounts)) =
        ((packLoop cfg rem).getD k ⟨[], [], 0⟩).units.drop
          (((packLoop cfg rem).getD k ⟨[], [], 0⟩).units.length -
            overlapCount cfg.chunk_overlap
              (((packLoop cfg rem).getD k ⟨[], [], 0⟩).unitCounts))) ?_ ?_ ?_
  · intro k hk
    simp [packLoop] at hk
  · intro p rest us uts tok hb hdrop k hk
    simp only [packLoop, hb, if_pos hdrop] at hk
    simp at hk
  · intro p rest us uts tok hb hdrop ih k hk
    have hunfold : packLoop cfg (p :: rest) =
        ⟨us, uts, tok⟩ ::
          packLoop cfg
            ((p :: rest).drop (us.length - overlapCount cfg.chunk_overlap uts)) := by
      simp only [packLoop, hb, if_neg hdrop]
    rw [hunfold] at hk ⊢
    cases k with
    | zero =>
      simp only [List.getD_cons_zero, List.getD_cons_succ]
      exact packLoop_step_overlap cfg p rest us uts tok hb
    | succ k2 =>
      simp only [List.getD_cons_succ]
      apply ih
      simp only [List.length_cons] at hk
      omega

theorem toChunks_map_index (metadata : Meta) :
    ∀ (ps : List ProsePiece) (idx : Nat),
      (toChunks metadata idx ps).map (fun c => c.chunk_index) =
        List.range' idx ps.length := by
  intro ps
  induction ps with
  | nil => intro idx; simp [toChunks]
  | cons piece rest ih =>
    intro idx
    simp only [toChunks, List.map_cons, List.length_cons, List.range'_succ]
    rw [ih (idx + 1)]

theorem toChunks_map_token (metadata : Meta) :
    ∀ (ps : List ProsePiece) (idx : Nat),
      (toChunks metadata idx ps).map (fun c => c.token_count) =
        ps.map (fun piece => piece.tokens) := by
  intro ps
  induction ps with
  | nil => intro idx; simp [toChunks]
  | cons piece rest ih =>
    intro idx
    simp only [toChunks, List.map_cons]
    rw [ih (idx + 1)]

theorem toChunks_length (metadata : Meta) :
    ∀ (ps : List ProsePiece) (idx : Nat),
      (toChunks metadata idx ps).length = ps.length := by
  intro ps
  induction ps with
  | nil => intro idx; simp [toChunks]
  | cons piece rest ih =>
    intro idx
    simp only [toChunks, List.length_cons]
    rw [ih (idx + 1)]

theorem chunkCodeLoop_index (tc : String → Nat) (chunk_size : Nat)
    (lines : List String) (metadata : Meta) :
    ∀ (body : List PyNode) (chunks : List Chunk) (cur : List String) (ct : Nat),
      chunks.map (fun c => c.chunk_index) = List.range chunks.length →
      (chunkCodeLoop tc chunk_size lines metadata body chunks cur ct).map
          (fun c => c.chunk_index) =
        List.range
          (chunkCodeLoop tc chunk_size lines metadata body chunks cur ct).length := by
  intro body
  induction body with
  | nil =>
    intro chunks cur ct hinv
    by_cases hcur : cur ≠ []
    · simp only [chunkCodeLoop, if_pos hcur]
      simp [hinv, List.range_succ]
    · simp only [chunkCodeLoop, if_neg hcur]
      exact hinv
  | cons node rest ih =>
    intro chunks cur ct hinv
    obtain ⟨sp⟩ := node
    cases sp with
    | none => simpa only [chunkCodeLoop] using ih chunks cur ct hinv
    | some le =>
      obtain ⟨l, e⟩ := le
      simp only [chunkCodeLoop]
      by_cases hc : ct + tc (joinNl ((lines.drop (l - 1)).take (e - (l - 1)))) >
          chunk_size ∧ cur ≠ []
      · rw [if_pos hc]
        apply ih
        simp [hinv, List.range_succ]
      · rw [if_neg hc]
        exact ih chunks _ _ hinv

theorem joinNl_cons_ne (l : String) (ls : List String) (h : ls ≠ []) :
    joinNl (l :: ls) = l ++ "\n" ++ joinNl ls := by
  cases ls with
  | nil => exact absurd rfl h
  | cons a as => rfl

theorem joinNl_append (xs ys : List String) (hx : xs ≠ []) (hy : ys ≠ []) :
    joinNl (xs ++ ys) = joinNl xs ++ "\n" ++ joinNl ys := by
  induction xs with
  | nil => exact absurd rfl hx
  | cons x xs2 ih =>
    cases hxs2 : xs2 with
    | nil =>
      simp only [List.cons_append, List.nil_append]
      rw [joinNl_cons_ne x ys hy]
      rfl
    | cons a as =>
      have hne : xs2 ++ ys ≠ [] := by simp [hxs2]
      have hxs2ne : xs2 ≠ [] := by simp [hxs2]
      rw [← hxs2]
      simp only [List.cons_append]
      rw [joinNl_cons_ne x (xs2 ++ ys) hne, ih hxs2ne,
        joinNl_cons_ne x xs2 hxs2ne]
      simp [String.append_assoc]

theorem flatten_ne_nil_of_ne (gs : List (List String)) (h1 : gs ≠ [])
    (h2 : ∀ g ∈ gs, g ≠ []) : gs.flatten ≠ [] := by
  cases gs with
  | nil => exact absurd rfl h1
  | cons g rest =>
    have hg : g ≠ [] := h2 g (by simp)
    simp only [List.flatten_cons]
    intro hnil
    rcases List.append_eq_nil.mp hnil with ⟨hgnil, _⟩
    exact hg hgnil

theorem joinNl_map_join (gs : List (List String)) (h : ∀ g ∈ gs, g ≠ []) :
    joinNl (gs.map joinNl) = joinNl gs.flatten := by
  induction gs with
  | nil => rfl
  | cons g rest ih =>
    cases hrest : rest with
    | nil =>
      subst hrest
      simp [joinNl]
    | cons g2 rest2 =>
      have hg : g ≠ [] := h g (by simp)
      have hrestne : rest ≠ [] := by simp [hrest]
      have hmapne : rest.map joinNl ≠ [] := by simp [hrest]
      have hjoinne : rest.flatten ≠ [] :=
        flatten_ne_nil_of_ne rest hrestne (fun g3 h3 => h g3 (by simp [h3]))
      rw [← hrest]
      simp only [List.map_cons, List.flatten_cons]
      rw [joinNl_cons_ne _ _ hmapne, ih (fun g3 h3 => h g3 (by simp [h3])),
        joinNl_append g rest.flatten hg hjoinne]

theorem chunkCodeLoop_text_decomp (tc : String → Nat) (chunk_size : Nat)
    (lines : List String) (metadata : Meta) :
    ∀ (body : List PyNode) (chunks : List Chunk) (cur : List String) (ct : Nat),
      ∃ gs : List (List String),
        (chunkCodeLoop tc chunk_size lines metadata body chunks cur ct).map
            (fun c => c.text) =
          chunks.map (fun c => c.text) ++ gs.map joinNl ∧
        gs.flatten = cur ++ (body.map (nodeLinesOf lines)).flatten ∧
        ∀ g ∈ gs, g ≠ [] := by
  intro body
  induction body with
  | nil =>
    intro chunks cur ct
    by_cases hcur : cur ≠ []
    · refine ⟨[cur], ?_, by simp, by simpa using hcur⟩
      simp [chunkCodeLoop, if_pos hcur]
    · push_neg at hcur
      subst hcur
      refine ⟨[], ?_, by simp, by simp⟩
      simp [chunkCodeLoop]
  | cons node rest ih =>
    intro chunks cur ct
    obtain ⟨sp⟩ := node
    cases sp with
    | none =>
      obtain ⟨gs, h1, h2, h3⟩ := ih chunks cur ct
      refine ⟨gs, ?_, ?_, h3⟩
      · simpa [chunkCodeLoop] using h1
      · simpa [nodeLinesOf] using h2
    | some le =>
      obtain ⟨l, e⟩ := le
      simp only [chunkCodeLoop]
      by_cases hc : ct + tc (joinNl ((lines.drop (l - 1)).take (e - (l - 1)))) >
          chunk_size ∧ cur ≠ []
      · rw [if_pos hc]
        obtain ⟨gs, h1, h2, h3⟩ := ih
          (chunks ++ [(⟨joinNl cur, chunks.length, ct, metaCopy metadata⟩ : Chunk)])
          ((lines.drop (l - 1)).take (e - (l - 1)))
          (tc (joinNl ((lines.drop (l - 1)).take (e - (l - 1)))))
        refine ⟨cur :: gs, ?_, ?_, ?_⟩
        · rw [h1]
          simp
        · simp only [List.flatten_cons, h2, nodeLinesOf, List.map_cons]
        · intro g hg
          simp only [List.mem_cons] at hg
          rcases hg with hg | hg
          · subst hg
            exact hc.2
          · exact h3 g hg
      · rw [if_neg hc]
        obtain ⟨gs, h1, h2, h3⟩ := ih chunks
          (cur ++ (lines.drop (l - 1)).take (e - (l - 1)))
          (ct + tc (joinNl ((lines.drop (l - 1)).take (e - (l - 1)))))
        refine ⟨gs, h1, ?_, h3⟩
        rw [h2]
        simp [nodeLinesOf]

theorem spanTiles_join (lines : List String) :
    ∀ (body : List PyNode) (s : Nat), spanTiles s body lines.length = true →
      (body.map (nodeLinesOf lines)).flatten = lines.drop s := by
  intro body
  induction body with
  | nil =>
    intro s h
    simp only [spanTiles, beq_iff_eq] at h
    subst h
    simp [List.drop_length]
  | cons node rest ih =>
    intro s h
    obtain ⟨sp⟩ := node
    cases sp with
    | none => simp [spanTiles] at h
    | some le =>
      obtain ⟨l, e⟩ := le
      simp only [spanTiles, Bool.and_eq_true, beq_iff_eq, decide_eq_true_eq] at h
      obtain ⟨⟨⟨hl, hse⟩, het⟩, hrest⟩ := h
      simp only [List.map_cons, List.flatten_cons, nodeLinesOf]
      rw [ih e hrest]
      subst hl
      simp only [Nat.add_sub_cancel]
      have hdd : lines.drop e = (lines.drop s).drop (e - s) := by
        rw [List.drop_drop]
        congr 1
        omega
      rw [hdd, List.take_append_drop]

theorem isSpace_not_sentEnd (c : Char) (h : isSpaceChar c = true) :
    isSentEnd c = false := by
  simp only [isSpaceChar, Bool.or_eq_true, beq_iff_eq] at h
  rcases h with ((((h | h) | h) | h) | h) | h <;> subst h <;> rfl

theorem splitSentRec_all_space :
    ∀ (cs : List Char) (prev : Option Char) (acc : List Char),
      prevIsSentEnd prev = false → (∀ c ∈ cs, isSpaceChar c = true) →
      splitSentRec prev acc cs = [acc.reverse ++ cs] := by
  intro cs
  induction cs with
  | nil =>
    intro prev acc hprev _
    simp [splitSentRec, hprev]
  | cons c rest ih =>
    intro prev acc hprev hws
    have hc : isSpaceChar c = true := hws c (by simp)
    have hcse : prevIsSentEnd (some c) = false := by
      simp [prevIsSentEnd, isSpace_not_sentEnd c hc]
    simp only [splitSentRec, hprev, Bool.false_eq_true, if_false]
    rw [ih (some c) (c :: acc) hcse (fun c2 h2 => hws c2 (by simp [h2]))]
    simp

theorem stripWs_all_space (s : String) (h : ∀ c ∈ s.data, isSpaceChar c = true) :
    stripWs s = "" := by
  have h1 : s.data.dropWhile isSpaceChar = [] := by
    rw [List.dropWhile_eq_nil_iff]
    exact h
  simp only [stripWs, stripChars, h1]
  rfl

theorem stageA_all_space (text : String)
    (h : ∀ c ∈ text.data, isSpaceChar c = true) : stageA text = [] := by
  simp only [stageA, splitSentences]
  rw [splitSentRec_all_space text.data none [] rfl h]
  simp only [List.reverse_nil, List.nil_append, List.map_cons, List.map_nil,
    List.filterMap_cons, List.filterMap_nil]
  have hmk : (String.mk text.data) = text := rfl
  rw [hmk, stripWs_all_space text h]
  simp

theorem splitWsGo_words_shape :
    ∀ (cs cur : List Char), (∀ c ∈ cur, isSpaceChar c = false) →
      ∀ w ∈ splitWsGo cs cur, w ≠ [] ∧ ∀ c ∈ w, isSpaceChar c = false := by
  intro cs
  induction cs with
  | nil =>
    intro cur hcur w hw
    simp only [splitWsGo] at hw
    by_cases h : cur = []
    · simp [h] at hw
    · rw [if_neg h] at hw
      simp only [List.mem_singleton] at hw
      subst hw
      refine ⟨by simpa using h, ?_⟩
      intro c hc
      exact hcur c (by simpa using hc)
  | cons c rest ih =>
    intro cur hcur w hw
    simp only [splitWsGo] at hw
    by_cases hsp : isSpaceChar c = true
    · rw [if_pos hsp] at hw
      by_cases h : cur = []
      · rw [if_pos h] at hw
        exact ih [] (by simp) w hw
      · rw [if_neg h] at hw
        simp only [List.mem_cons] at hw
        rcases hw with hw | hw
        · subst hw
          refine ⟨by simpa using h, ?_⟩
          intro c2 hc2
          exact hcur c2 (by simpa using hc2)
        · exact ih [] (by simp) w hw
    · rw [if_neg hsp] at hw
      refine ih (c :: cur) ?_ w hw
      intro c2 hc2
      rcases List.mem_cons.mp hc2 with h2 | h2
      · subst h2
        simpa using hsp
      · exact hcur c2 h2

theorem splitWsGo_word_front :
    ∀ (w cs cur : List Char), (∀ c ∈ w, isSpaceChar c = false) →
      splitWsGo (w ++ cs) cur = splitWsGo cs (w.reverse ++ cur) := by
  intro w
  induction w with
  | nil => intro cs cur _; simp
  | cons c w2 ih =>
    intro cs cur hw
    have hc : isSpaceChar c = false := hw c (by simp)
    simp only [List.cons_append, splitWsGo, hc, Bool.false_eq_true, if_false,
      List.append_eq]
    rw [ih cs (c :: cur) (fun c2 h2 => hw c2 (by simp [h2]))]
    congr 1
    simp

theorem fallbackCount_word (w : String) (hne : w.data ≠ [])
    (hns : ∀ c ∈ w.data, isSpaceChar c = false) : fallbackCount w = 1 := by
  simp only [fallbackCount, pySplitWs]
  have h0 : splitWsGo w.data [] = splitWsGo [] (w.data.reverse ++ []) := by
    rw [← splitWsGo_word_front w.data [] [] hns, List.append_nil]
  rw [h0]
  have hrev : w.data.reverse ++ [] ≠ [] := by simpa using hne
  simp only [splitWsGo, if_neg hrev]
  simp

theorem joinSp_cons_ne (w : String) (ws : List String) (h : ws ≠ []) :
    joinSp (w :: ws) = w ++ " " ++ joinSp ws := by
  cases ws with
  | nil => exact absurd rfl h
  | cons a as => rfl

theorem fallbackCount_joinSp :
    ∀ (ws : List String),
      (∀ w ∈ ws, w.data ≠ [] ∧ ∀ c ∈ w.data, isSpaceChar c = false) →
      fallbackCount (joinSp ws) = ws.length := by
  intro ws
  induction ws with
  | nil => intro _; rfl
  | cons w ws2 ih =>
    intro hws
    have hw := hws w (by simp)
    cases hws2 : ws2 with
    | nil =>
      subst hws2
      simpa [joinSp] using fallbackCount_word w hw.1 hw.2
    | cons a as =>
      have hne : ws2 ≠ [] := by simp [hws2]
      rw [← hws2]
      rw [joinSp_cons_ne w ws2 hne]
      simp only [fallbackCount, pySplitWs]
      have hdata : (w ++ " " ++ joinSp ws2).data =
          w.data ++ (' ' :: (joinSp ws2).data) := by
        simp [String.data_append]
      rw [hdata]
      rw [splitWsGo_word_front w.data (' ' :: (joinSp ws2).data) [] hw.2]
      have hrevne : w.data.reverse ++ [] ≠ [] := by simpa using hw.1
      simp only [splitWsGo, if_neg hrevne]
      have hsp : isSpaceChar ' ' = true := rfl
      rw [if_pos hsp]
      simp only [List.length_map, List.length_cons]
      have := ih (fun w2 h2 => hws w2 (by simp [h2]))
      simp only [fallbackCount, pySplitWs, List.length_map] at this
      omega

theorem effMaxTokens_pos (arg : Option Nat) : 1 ≤ effMaxTokens arg := by
  cases arg with
  | none => simp [effMaxTokens, MAX_MODEL_TOKENS]
  | some n =>
    simp only [effMaxTokens]
    split
    · simp [MAX_MODEL_TOKENS]
    · omega

theorem splitWordsLoop_fallback (maxT : Nat) (hmax : 1 ≤ maxT) :
    ∀ (words cur : List String) (ct : Nat),
      (∀ w ∈ words, w.data ≠ [] ∧ ∀ c ∈ w.data, isSpaceChar c = false) →
      (∀ w ∈ cur, w.data ≠ [] ∧ ∀ c ∈ w.data, isSpaceChar c = false) →
      ct = cur.length → cur.length ≤ maxT →
      ∀ piece ∈ splitWordsLoop fallbackCount maxT words cur ct,
        fallbackCount piece ≤ maxT := by
  intro words
  induction words with
  | nil =>
    intro cur ct hwords hcur hct hle piece hp
    simp only [splitWordsLoop] at hp
    by_cases h : cur = []
    · simp [h] at hp
    · rw [if_neg h] at hp
      simp only [List.mem_singleton] at hp
      subst hp
      rw [fallbackCount_joinSp cur hcur]
      exact hle
  | cons w ws ih =>
    intro cur ct hwords hcur hct hle piece hp
    have hw := hwords w (by simp)
    have htcw : fallbackCount w = 1 := fallbackCount_word w hw.1 hw.2
    simp only [splitWordsLoop, htcw] at hp
    by_cases hcond : ct + 1 > maxT ∧ cur ≠ []
    · rw [if_pos hcond] at hp
      simp only [List.mem_cons] at hp
      rcases hp with hp | hp
      · subst hp
        rw [fallbackCount_joinSp cur hcur]
        exact hle
      · refine ih [w] 1 (fun w2 h2 => hwords w2 (by simp [h2]))
          (by simpa using hw) (by simp) (by simpa using hmax) piece hp
    · rw [if_neg hcond] at hp
      refine ih (cur ++ [w]) (ct + 1) (fun w2 h2 => hwords w2 (by simp [h2])) ?_
        (by simp [hct]) ?_ piece hp
      · intro w2 h2
        rcases List.mem_append.mp h2 with h3 | h3
        · exact hcur w2 h3
        · simp only [List.mem_singleton] at h3
          subst h3
          exact hw
      · by_cases hcure : cur = []
        · subst hcure
          simpa using hmax
        · have : ¬ ct + 1 > maxT := by
            intro hgt
            exact hcond ⟨hgt, hcure⟩
          simp only [List.length_append, List.length_cons, List.length_nil]
          omega

theorem pySplitWs_words_shape (s : String) :
    ∀ w ∈ pySplitWs s, w.data ≠ [] ∧ ∀ c ∈ w.data, isSpaceChar c = false := by
  intro w hw
  simp only [pySplitWs, List.mem_map] at hw
  obtain ⟨cs, hcs, hmk⟩ := hw
  subst hmk
  exact splitWsGo_words_shape s.data [] (by simp) cs hcs

theorem splitOversized_fallback_le (text : String) (arg : Option Nat) :
    ∀ piece ∈ splitOversizedText fallbackCount text arg,
      fallbackCount piece ≤ effMaxTokens arg := by
  intro piece hp
  simp only [splitOversizedText] at hp
  by_cases h : fallbackCount text ≤ effMaxTokens arg
  · rw [if_pos h] at hp
    simp only [List.mem_singleton] at hp
    subst hp
    exact h
  · rw [if_neg h] at hp
    exact splitWordsLoop_fallback (effMaxTokens arg) (effMaxTokens_pos arg)
      (pySplitWs text) [] 0 (pySplitWs_words_shape text) (by simp) rfl
      (by simp) piece hp

theorem stageB_fallback_le (text : String) :
    ∀ u ∈ stageB fallbackCount (stageA text),
      fallbackCount u ≤ MAX_MODEL_TOKENS := by
  intro u hu
  simp only [stageB, List.mem_flatMap] at hu
  obtain ⟨s, _, hu2⟩ := hu
  by_cases h : fallbackCount s > MAX_MODEL_TOKENS
  · rw [if_pos h] at hu2
    have := splitOversized_fallback_le s (some MAX_MODEL_TOKENS) u hu2
    simpa [effMaxTokens, MAX_MODEL_TOKENS] using this
  · rw [if_neg h] at hu2
    simp only [List.mem_singleton] at hu2
    subst hu2
    omega

theorem store_get_append (objs : List PyObj) (x : PyObj) (a : Nat)
    (h : a < objs.length) :
    (Store.mk (objs ++ [x])).get a = (Store.mk objs).get a := by
  simp only [Store.get]
  exact List.getElem?_append_left h

theorem range'_getD (n : Nat) :
    ∀ (s i : Nat), i < n → (List.range' s n).getD i 0 = s + i := by
  induction n with
  | zero => intro s i h; omega
  | succ n2 ih =>
    intro s i h
    rw [List.range'_succ]
    cases i with
    | zero => simp
    | succ i2 =>
      simp only [List.getD_cons_succ]
      rw [ih (s + 1) i2 (by omega)]
      omega

theorem allocCopies_spec :
    ∀ (n : Nat) (σ : Store) (d0 : Nat), d0 < σ.objs.length →
      (allocCopies σ d0 n).1.objs =
          σ.objs ++ List.replicate n (dictShallowCopy σ d0) ∧
        (allocCopies σ d0 n).2 = List.range' σ.objs.length n := by
  intro n
  induction n with
  | zero => intro σ d0 _; simp [allocCopies]
  | succ n2 ih =>
    intro σ d0 hd0
    have hcopy : dictShallowCopy (Store.mk (σ.objs ++ [dictShallowCopy σ d0])) d0 =
        dictShallowCopy σ d0 := by
      simp only [dictShallowCopy]
      rw [store_get_append σ.objs _ d0 hd0]
    have hrec := ih (Store.mk (σ.objs ++ [dictShallowCopy σ d0])) d0
      (by simp; omega)
    simp only [allocCopies, Store.alloc]
    constructor
    · rw [hrec.1, hcopy]
      simp [List.replicate_succ, List.append_assoc]
    · rw [hrec.2]
      simp only [List.length_append, List.length_cons, List.length_nil]
      rw [List.range'_succ]

theorem resolveVal_setKey (σ : Store) (d : Nat) (k : String) (v : PyVal)
    (w : PyVal) : resolveVal (setKey σ d k v) w = resolveVal σ w := by
  cases w with
  | str s => rfl
  | ref a =>
    simp only [resolveVal, setKey]
    cases hobj : σ.get d with
    | none => rfl
    | some o =>
      cases o with
      | cell s => rfl
      | dict kvs =>
        simp only [Store.setObj, Store.get]
        by_cases had : a = d
        · subst had
          by_cases hlt : a < σ.objs.length
          · rw [List.getElem?_set_self hlt]
            simp only [Store.get] at hobj
            rw [hobj]
          · exfalso
            simp only [Store.get] at hobj
            rw [List.getElem?_eq_none (by omega)] at hobj
            cases hobj
        · rw [List.getElem?_set_ne (fun he => had he.symm)]

theorem observe_setKey_ne (σ : Store) (d b : Nat) (k : String) (v : PyVal)
    (hne : d ≠ b) : observe (setKey σ d k v) b = observe σ b := by
  have hget : (setKey σ d k v).get b = σ.get b := by
    simp only [setKey]
    cases hobj : σ.get d with
    | none => rfl
    | some o =>
      cases o with
      | cell s => rfl
      | dict kvs =>
        simp only [Store.setObj, Store.get]
        exact List.getElem?_set_ne hne
  simp only [observe, hget]
  cases σ.get b with
  | none => rfl
  | some o =>
    cases o with
    | cell s => rfl
    | dict kvs =>
      simp only []
      apply List.map_congr_left
      intro kv _
      rw [resolveVal_setKey]

theorem chunkProse_index (tc : String → Nat) (cfg : ChunkerConfig)
    (text : String) (metadata : Meta) :
    (chunkProse tc cfg text metadata).map (fun c => c.chunk_index) =
      List.range (chunkProse tc cfg text metadata).length := by
  simp only [chunkProse]
  rw [toChunks_map_index, toChunks_length, List.range_eq_range']

/-- C1: for every input text, token counter and configuration, every piece
built by the prose packing loop carries cached counts that are exactly the
token counts of its units, records their sum as its token count, and either
respects token_count ≤ chunk_size or consists of exactly one unit whose own
cached token count exceeds chunk_size — so no chunk with two or more units
ever exceeds chunk_size; and _chunk_prose emits exactly these pieces as its
chunk records with the same token counts. -/
theorem C1_prose_budget_invariant (tc : String → Nat) (cfg : ChunkerConfig)
    (text : String) (metadata : Meta) :
    ((prosePieces tc cfg text).all fun piece =>
        decide (piece.unitCounts = piece.units.map tc) &&
        decide (piece.tokens = piece.unitCounts.sum) &&
        (decide (piece.tokens ≤ cfg.chunk_size) ||
          (decide (piece.units.length = 1) &&
            decide (cfg.chunk_size < piece.tokens)))) = true ∧
    chunkProse tc cfg text metadata =
      toChunks metadata 0 (prosePieces tc cfg text) ∧
    (chunkProse tc cfg text metadata).map (fun c => c.token_count) =
      (prosePieces tc cfg text).map (fun piece => piece.tokens) := by
  refine ⟨?_, rfl, toChunks_map_token metadata _ 0⟩
  rw [List.all_eq_true]
  intro piece hp
  simp only [prosePieces] at hp
  obtain ⟨h1, h2, h3, h4, h5⟩ := packLoop_piece_spec cfg tc
    ((stageB tc (stageA text)).zip ((stageB tc (stageA text)).map tc))
    (zip_self_map_consistent tc _) piece hp
  simp only [Bool.and_eq_true, Bool.or_eq_true, decide_eq_true_eq]
  refine ⟨⟨h1, h2⟩, ?_⟩
  by_cases hle : piece.tokens ≤ cfg.chunk_size
  · exact Or.inl hle
  · right
    have hlen1 : piece.units.length = 1 := by
      by_contra hne
      have h2le : 2 ≤ piece.units.length := by omega
      exact hle (h5 h2le)
    exact ⟨hlen1, by omega⟩

/-- C2: liveness of the prose packing loop for every configuration,
including chunk_overlap ≥ chunk_size and chunk_overlap = 0: from any
nonempty remaining unit sequence the built chunk contains at least one
unit, the number of rewound units is at most the chunk's unit count minus
one, and therefore the remaining sequence strictly shrinks — the cursor
strictly advances on every outer iteration, so the loop terminates on
every input. -/
theorem C2_prose_overlap_strict_advance (cfg : ChunkerConfig)
    (p : String × Nat) (rest : List (String × Nat)) :
    1 ≤ (buildChunk cfg.chunk_size (p :: rest) [] [] 0).1.length ∧
    overlapCount cfg.chunk_overlap
        (buildChunk cfg.chunk_size (p :: rest) [] [] 0).2.1 ≤
      (buildChunk cfg.chunk_size (p :: rest) [] [] 0).1.length - 1 ∧
    ((p :: rest).drop
        ((buildChunk cfg.chunk_size (p :: rest) [] [] 0).1.length -
          overlapCount cfg.chunk_overlap
            (buildChunk cfg.chunk_size (p :: rest) [] [] 0).2.1)).length <
      (p :: rest).length := by
  have h1 : 1 ≤ (buildChunk cfg.chunk_size (p :: rest) [] [] 0).1.length :=
    buildChunk_cons_pos cfg.chunk_size p rest
  have heq : (buildChunk cfg.chunk_size (p :: rest) [] [] 0).1.length =
      (buildChunk cfg.chunk_size (p :: rest) [] [] 0).2.1.length :=
    buildChunk_len_eq2 cfg.chunk_size (p :: rest) [] [] 0 rfl
  have hne : (buildChunk cfg.chunk_size (p :: rest) [] [] 0).2.1 ≠ [] := by
    intro hnil
    rw [hnil] at heq
    simp only [List.length_nil] at heq
    omega
  have hr : overlapCount cfg.chunk_overlap
      (buildChunk cfg.chunk_size (p :: rest) [] [] 0).2.1 <
      (buildChunk cfg.chunk_size (p :: rest) [] [] 0).2.1.length :=
    overlapCount_lt2 cfg.chunk_overlap _ hne
  refine ⟨h1, by omega, ?_⟩
  simp only [List.length_drop, List.length_cons]
  omega

set_option maxRecDepth 8000 in
/-- C3 counterexample: _split_oversized_text never breaks inside a word, so
with a token counter under which a single 501-character word measures 501
tokens (one token per character, a possible worst case for a subword
tokenizer) the word is returned as a single piece measuring over the
MAX_MODEL_TOKENS ceiling — the claim as stated is false for the general
token counter. -/
theorem C3_ceiling_counterexample :
    ((splitOversizedText String.length
        (String.mk (List.replicate 501 'a')) (some MAX_MODEL_TOKENS)).all
      fun piece => decide (String.length piece ≤ MAX_MODEL_TOKENS)) = false := by
  decide

/-- C3 amended: with the repository's fallback token counter (whitespace
word counting, the mode _count_tokens uses when no tokenizer is loaded),
every piece returned by _split_oversized_text measures at most the
effective ceiling for every input string and ceiling argument, and every
unit produced by Stage B measures at most MAX_MODEL_TOKENS; for a general
tokenizer the bound can only fail on a piece that is a single unbreakable
word whose own token count exceeds the ceiling. -/
theorem C3_ceiling_fallback_bound (text : String) (maxTokensArg : Option Nat) :
    ((splitOversizedText fallbackCount text maxTokensArg).all fun piece =>
        decide (fallbackCount piece ≤ effMaxTokens maxTokensArg)) = true ∧
    ((stageB fallbackCount (stageA text)).all fun u =>
        decide (fallbackCount u ≤ MAX_MODEL_TOKENS)) = true := by
  constructor
  · rw [List.all_eq_true]
    intro x hx
    simp only [decide_eq_true_eq]
    exact splitOversized_fallback_le text maxTokensArg x hx
  · rw [List.all_eq_true]
    intro x hx
    simp only [decide_eq_true_eq]
    exact stageB_fallback_le text x hx

/-- C4: for every pair of consecutive pieces produced by the prose packing
loop, the rewound trailing units of the earlier piece (their number being
the overlap count the source computes, capped at all but one unit) are
exactly the leading units of the next piece, and their total cached token
count is at least min(chunk_overlap, cached tokens of all but the first
unit of the earlier piece — the tokens available for overlap under the
cap). -/
theorem C4_overlap_min_bound (tc : String → Nat) (cfg : ChunkerConfig)
    (text : String) (k : Nat)
    (hk : k + 1 < (prosePieces tc cfg text).length) :
    ((prosePieces tc cfg text).getD (k + 1) ⟨[], [], 0⟩).units.take
        (overlapCount cfg.chunk_overlap
          ((prosePieces tc cfg text).getD k ⟨[], [], 0⟩).unitCounts) =
      ((prosePieces tc cfg text).getD k ⟨[], [], 0⟩).units.drop
        (((prosePieces tc cfg text).getD k ⟨[], [], 0⟩).units.length -
          overlapCount cfg.chunk_overlap
            ((prosePieces tc cfg text).getD k ⟨[], [], 0⟩).unitCounts) ∧
    overlapCount cfg.chunk_overlap
        ((prosePieces tc cfg text).getD k ⟨[], [], 0⟩).unitCounts ≤
      ((prosePieces tc cfg text).getD k ⟨[], [], 0⟩).units.length - 1 ∧
    min cfg.chunk_overlap
        ((((prosePieces tc cfg text).getD k ⟨[], [], 0⟩).unitCounts.drop 1).sum) ≤
      (((prosePieces tc cfg text).getD k ⟨[], [], 0⟩).unitCounts.drop
          (((prosePieces tc cfg text).getD k ⟨[], [], 0⟩).unitCounts.length -
            overlapCount cfg.chunk_overlap
              ((prosePieces tc cfg text).getD k ⟨[], [], 0⟩).unitCounts)).sum := by
  have hmem : (prosePieces tc cfg text).getD k ⟨[], [], 0⟩ ∈
      prosePieces tc cfg text := by
    rw [List.getD_eq_getElem?_getD]
    rw [List.getElem?_eq_getElem (by omega)]
    simp only [Option.getD_some]
    exact List.getElem_mem _
  have hspec := packLoop_piece_spec cfg tc
    ((stageB tc (stageA text)).zip ((stageB tc (stageA text)).map tc))
    (zip_self_map_consistent tc _)
    ((prosePieces tc cfg text).getD k ⟨[], [], 0⟩)
    (by simpa only [prosePieces] using hmem)
  obtain ⟨h1, h2, h3, h4, h5⟩ := hspec
  have hcne : ((prosePieces tc cfg text).getD k ⟨[], [], 0⟩).unitCounts ≠ [] := by
    intro hnil
    rw [hnil] at h4
    simp only [List.length_nil] at h4
    omega
  have hconsec := packLoop_consecutive cfg
    ((stageB tc (stageA text)).zip ((stageB tc (stageA text)).map tc)) k
    (by simpa only [prosePieces] using hk)
  refine ⟨by simpa only [prosePieces] using hconsec, ?_, ?_⟩
  · have := overlapCount_lt2 cfg.chunk_overlap _ hcne
    omega
  · exact overlapCount_min_bound cfg.chunk_overlap _ hcne

/-- Witness for C4: the text splits into three two-token sentences; with
chunk_size 4 and chunk_overlap 2 the loop emits two pieces and rewinds one
sentence, which reappears at the head of the second piece with cached count
2 ≥ min(2, 2). -/
theorem C4_overlap_min_bound_witness :
    (0 + 1 < (prosePieces fallbackCount ⟨4, 2⟩ "A b. C d. E f.").length) ∧
    (((prosePieces fallbackCount ⟨4, 2⟩ "A b. C d. E f.").getD (0 + 1)
          ⟨[], [], 0⟩).units.take
        (overlapCount (ChunkerConfig.mk 4 2).chunk_overlap
          ((prosePieces fallbackCount ⟨4, 2⟩ "A b. C d. E f.").getD 0
            ⟨[], [], 0⟩).unitCounts) =
      ((prosePieces fallbackCount ⟨4, 2⟩ "A b. C d. E f.").getD 0
          ⟨[], [], 0⟩).units.drop
        (((prosePieces fallbackCount ⟨4, 2⟩ "A b. C d. E f.").getD 0
            ⟨[], [], 0⟩).units.length -
          overlapCount (ChunkerConfig.mk 4 2).chunk_overlap
            ((prosePieces fallbackCount ⟨4, 2⟩ "A b. C d. E f.").getD 0
              ⟨[], [], 0⟩).unitCounts) ∧
      overlapCount (ChunkerConfig.mk 4 2).chunk_overlap
          ((prosePieces fallbackCount ⟨4, 2⟩ "A b. C d. E f.").getD 0
            ⟨[], [], 0⟩).unitCounts ≤
        ((prosePieces fallbackCount ⟨4, 2⟩ "A b. C d. E f.").getD 0
            ⟨[], [], 0⟩).units.length - 1 ∧
      min (ChunkerConfig.mk 4 2).chunk_overlap
          ((((prosePieces fallbackCount ⟨4, 2⟩ "A b. C d. E f.").getD 0
              ⟨[], [], 0⟩).unitCounts.drop 1).sum) ≤
        (((prosePieces fallbackCount ⟨4, 2⟩ "A b. C d. E f.").getD 0
              ⟨[], [], 0⟩).unitCounts.drop
            (((prosePieces fallbackCount ⟨4, 2⟩ "A b. C d. E f.").getD 0
                ⟨[], [], 0⟩).unitCounts.length -
              overlapCount (ChunkerConfig.mk 4 2).chunk_overlap
                ((prosePieces fallbackCount ⟨4, 2⟩ "A b. C d. E f.").getD 0
                  ⟨[], [], 0⟩).unitCounts)).sum) := by
  have hk : 0 + 1 < (prosePieces fallbackCount ⟨4, 2⟩ "A b. C d. E f.").length := by
    simp [prosePieces, stageA, stageB, splitSentences, splitSentRec, prevIsSentEnd,
      isSentEnd, wsTake, wsDrop, headIsUpper, isUpperAZ, isSpaceChar, stripWs,
      stripChars, fallbackCount, pySplitWs, splitWsGo, splitOversizedText,
      MAX_MODEL_TOKENS, packLoop, buildChunk, overlapCount, overlapWalk,
      effMaxTokens, splitWordsLoop, joinSp]
  exact ⟨hk, C4_overlap_min_bound fallbackCount ⟨4, 2⟩ "A b. C d. E f." 0 hk⟩

/-- C5 counterexample: the caller dictionary at address 0 holds key k whose
value is a reference to the mutable cell at address 1 (a nested mutable
value such as a list).  The two chunk metadata copies land at addresses 2
and 3, both still referencing cell 1, because dict.copy() is shallow.
Observing both copies gives [(k, v)]; after mutating the nested cell
reachable from chunk 0's metadata, chunk 1's observed metadata has changed
to [(k, w)] — mutating a nested value inside one chunk's metadata does
affect the other chunk's metadata, so the claim as stated is false. -/
theorem C5_metadata_nested_counterexample :
    (allocCopies c5Store 0 2).2 = [2, 3] ∧
    observe (allocCopies c5Store 0 2).1 2 = [("k", "v")] ∧
    observe (allocCopies c5Store 0 2).1 3 = [("k", "v")] ∧
    observe (setCell (allocCopies c5Store 0 2).1 1 "w") 3 = [("k", "w")] ∧
    observe (setCell (allocCopies c5Store 0 2).1 1 "w") 3 ≠
      observe (allocCopies c5Store 0 2).1 3 := by
  decide

/-- C5 amended: the per-chunk metadata copies are independent at the top
level: the n copies allocated by one chunking call occupy n distinct fresh
addresses, so setting a key on one chunk's metadata dictionary never
changes the observed metadata of any other chunk nor the caller's original
dictionary.  (Nested mutable values, by the counterexample, remain
shared.) -/
theorem C5_metadata_toplevel_isolation (σ : Store) (d0 : Nat)
    (hd0 : d0 < σ.objs.length) (n i j : Nat) (hi : i < n) (hj : j < n)
    (hij : i ≠ j) (k : String) (v : PyVal) :
    observe (setKey (allocCopies σ d0 n).1
        ((allocCopies σ d0 n).2.getD i 0) k v)
        ((allocCopies σ d0 n).2.getD j 0) =
      observe (allocCopies σ d0 n).1 ((allocCopies σ d0 n).2.getD j 0) ∧
    observe (setKey (allocCopies σ d0 n).1
        ((allocCopies σ d0 n).2.getD i 0) k v) d0 =
      observe (allocCopies σ d0 n).1 d0 := by
  obtain ⟨hobjs, haddr⟩ := allocCopies_spec n σ d0 hd0
  rw [haddr, range'_getD n _ i hi, range'_getD n _ j hj]
  constructor
  · exact observe_setKey_ne _ _ _ k v (by omega)
  · exact observe_setKey_ne _ _ _ k v (by omega)

/-- Witness for C5 amended: with the concrete two-copy scene, adding a
document id to chunk 0's metadata leaves chunk 1's observed metadata and
the caller's dictionary unchanged. -/
theorem C5_metadata_toplevel_isolation_witness :
    0 < c5Store.objs.length ∧ (0 : Nat) < 2 ∧ (1 : Nat) < 2 ∧ (0 : Nat) ≠ 1 ∧
    (observe (setKey (allocCopies c5Store 0 2).1
        ((allocCopies c5Store 0 2).2.getD 0 0) "doc_id" (PyVal.str "d1"))
        ((allocCopies c5Store 0 2).2.getD 1 0) =
      observe (allocCopies c5Store 0 2).1
        ((allocCopies c5Store 0 2).2.getD 1 0) ∧
    observe (setKey (allocCopies c5Store 0 2).1
        ((allocCopies c5Store 0 2).2.getD 0 0) "doc_id" (PyVal.str "d1")) 0 =
      observe (allocCopies c5Store 0 2).1 0) :=
  ⟨by decide, by decide, by decide, by decide,
    C5_metadata_toplevel_isolation c5Store 0 (by decide) 2 0 1 (by decide)
      (by decide) (by decide) "doc_id" (PyVal.str "d1")⟩

theorem langIn_py_imp_big (md : Meta)
    (h : langIn md ["py", "python"] = true) :
    langIn md ["py", "js", "java", "cpp", "python", "javascript"] = true := by
  cases hg : metaGet md "language" with
  | none => simp [langIn, hg] at h
  | some pv =>
    cases pv with
    | ref a => simp [langIn, hg] at h
    | str s =>
      simp only [langIn, hg] at h ⊢
      simp only [List.contains_cons, List.contains_nil, Bool.or_eq_true,
        beq_iff_eq, Bool.or_false] at h ⊢
      tauto

/-- C6: for every text whose parse raises a syntax error and metadata whose
declared language is a Python language, chunk_text returns exactly the
output of running the prose chunker on the same raw text with the same
metadata — the parse-failure fallback is literal equality of results. -/
theorem C6_parse_failure_fallback
    (parsePy : String → Except Unit (List PyNode)) (tc : String → Nat)
    (cfg : ChunkerConfig) (text : String) (metadata : Meta)
    (htext : text ≠ "") (hlang : langIn metadata ["py", "python"] = true)
    (hparse : parsePy text = Except.error ()) :
    chunk_text parsePy tc cfg text (some metadata) =
      chunkProse tc cfg text metadata := by
  simp only [chunk_text, if_neg htext, Option.getD_some]
  rw [langIn_py_imp_big metadata hlang, hlang]
  simp only [Bool.and_self, if_true]
  simp only [chunkPythonCode, hparse]

/-- Witness for C6 at a concrete failing parse, Python language tag and
nonempty text. -/
theorem C6_parse_failure_fallback_witness :
    ("x" : String) ≠ "" ∧
    langIn [("language", PyVal.str "py")] ["py", "python"] = true ∧
    ((fun _ : String => (Except.error () : Except Unit (List PyNode))) "x" =
      Except.error ()) ∧
    chunk_text (fun _ => Except.error ()) fallbackCount defaultConfig "x"
        (some [("language", PyVal.str "py")]) =
      chunkProse fallbackCount defaultConfig "x" [("language", PyVal.str "py")] :=
  ⟨by decide, by decide, rfl,
    C6_parse_failure_fallback (fun _ => Except.error ()) fallbackCount
      defaultConfig "x" [("language", PyVal.str "py")] (by decide) (by decide) rfl⟩

/-- C7 counterexample: the syntactically valid Python source
"x = 1(newline)# c(newline)y = 2" parses to two top-level statements whose
spans are lines 1-1 and 3-3 (the comment line belongs to no abstract-syntax
node, exactly as Python's parser reports), so the structural chunker drops
line 2 and the concatenation of its chunks is "x = 1(newline)y = 2", which
does not reproduce the input — the claim as stated is false. -/
theorem C7_coverage_counterexample :
    joinNl ((chunkPythonCode
        (fun _ => Except.ok [⟨some (1, 1)⟩, ⟨some (3, 3)⟩]) fallbackCount
        defaultConfig "x = 1\n# c\ny = 2" []).map (fun c => c.text)) ≠
      "x = 1\n# c\ny = 2" := by
  decide

/-- C7 amended: when the top-level nodes' source spans tile the whole line
range of the input (no comment, blank or other line falls outside every
node span) and the input has no trailing newline, concatenating the texts
of the structural chunks joined by newline reproduces the full input
text. -/
theorem C7_coverage_tiled (parsePy : String → Except Unit (List PyNode))
    (tc : String → Nat) (cfg : ChunkerConfig) (text : String) (metadata : Meta)
    (body : List PyNode) (hparse : parsePy text = Except.ok body)
    (htile : spanTiles 0 body (pySplitlines text).length = true)
    (hjoin : joinNl (pySplitlines text) = text) :
    joinNl ((chunkPythonCode parsePy tc cfg text metadata).map
        (fun c => c.text)) = text := by
  simp only [chunkPythonCode, hparse]
  obtain ⟨gs, h1, h2, h3⟩ := chunkCodeLoop_text_decomp tc cfg.chunk_size
    (pySplitlines text) metadata body [] [] 0
  rw [h1]
  simp only [List.map_nil, List.nil_append]
  rw [joinNl_map_join gs h3, h2]
  simp only [List.nil_append]
  rw [spanTiles_join (pySplitlines text) body 0 htile]
  simp only [List.drop_zero]
  exact hjoin

/-- Witness for C7 amended: two single-line statements tiling a two-line
file reproduce the file. -/
theorem C7_coverage_tiled_witness :
    ((fun _ : String =>
        (Except.ok [⟨some (1, 1)⟩, ⟨some (2, 2)⟩] :
          Except Unit (List PyNode))) "a = 1\nb = 2" =
      Except.ok [⟨some (1, 1)⟩, ⟨some (2, 2)⟩]) ∧
    spanTiles 0 [⟨some (1, 1)⟩, ⟨some (2, 2)⟩]
      (pySplitlines "a = 1\nb = 2").length = true ∧
    joinNl (pySplitlines "a = 1\nb = 2") = "a = 1\nb = 2" ∧
    joinNl ((chunkPythonCode (fun _ => Except.ok [⟨some (1, 1)⟩, ⟨some (2, 2)⟩])
        fallbackCount defaultConfig "a = 1\nb = 2" []).map (fun c => c.text)) =
      "a = 1\nb = 2" :=
  ⟨rfl, by decide, by decide,
    C7_coverage_tiled (fun _ => Except.ok [⟨some (1, 1)⟩, ⟨some (2, 2)⟩])
      fallbackCount defaultConfig "a = 1\nb = 2" []
      [⟨some (1, 1)⟩, ⟨some (2, 2)⟩] rfl (by decide) (by decide)⟩

/-- C8: for every nonempty text and metadata whose declared language is not
one of the Python languages — other recognized code languages such as js,
java or cpp, unrecognized values, non-string values, and absent metadata
included — chunk_text takes the prose path and returns exactly the prose
chunker's output. -/
theorem C8_unsupported_language_prose
    (parsePy : String → Except Unit (List PyNode)) (tc : String → Nat)
    (cfg : ChunkerConfig) (text : String) (metadata : Option Meta)
    (htext : text ≠ "")
    (hlang : langIn (metadata.getD []) ["py", "python"] = false) :
    chunk_text parsePy tc cfg text metadata =
      chunkProse tc cfg text (metadata.getD []) := by
  simp only [chunk_text, if_neg htext]
  rw [hlang]
  simp

/-- Witness for C8: a js-tagged text is classified as code yet chunked by
the prose path. -/
theorem C8_unsupported_language_prose_witness :
    ("x = 1" : String) ≠ "" ∧
    langIn ((some [("language", PyVal.str "js")] : Option Meta).getD [])
      ["py", "python"] = false ∧
    chunk_text (fun _ => Except.ok []) fallbackCount defaultConfig "x = 1"
        (some [("language", PyVal.str "js")]) =
      chunkProse fallbackCount defaultConfig "x = 1"
        ((some [("language", PyVal.str "js")] : Option Meta).getD []) :=
  ⟨by decide, by decide,
    C8_unsupported_language_prose (fun _ => Except.ok []) fallbackCount
      defaultConfig "x = 1" (some [("language", PyVal.str "js")]) (by decide)
      (by decide)⟩

/-- C9: on every path of chunk_text — the prose path, the structural path
for every parse result, and the parse-failure fallback — the chunk_index
values of the returned chunks are exactly 0, 1, ..., n-1 in order. -/
theorem C9_chunk_index_contiguous
    (parsePy : String → Except Unit (List PyNode)) (tc : String → Nat)
    (cfg : ChunkerConfig) (text : String) (metadata : Option Meta) :
    (chunk_text parsePy tc cfg text metadata).map (fun c => c.chunk_index) =
      List.range (chunk_text parsePy tc cfg text metadata).length := by
  by_cases htext : text = ""
  · simp [chunk_text, htext]
  · simp only [chunk_text, if_neg htext]
    by_cases hcode :
        (langIn (metadata.getD [])
            ["py", "js", "java", "cpp", "python", "javascript"] &&
          langIn (metadata.getD []) ["py", "python"]) = true
    · rw [if_pos hcode]
      simp only [chunkPythonCode]
      cases hparse : parsePy text with
      | ok body =>
        exact chunkCodeLoop_index tc cfg.chunk_size (pySplitlines text)
          (metadata.getD []) body [] [] 0 (by simp)
      | error e => exact chunkProse_index tc cfg text (metadata.getD [])
    · rw [if_neg hcode]
      exact chunkProse_index tc cfg text (metadata.getD [])

/-- C10: chunk_text returns the empty sequence, raising no error, on empty
input for every metadata; and on whitespace-only input it also returns the
empty sequence, because Stage A discards whitespace-only spans and the
packing loop emits nothing from an empty unit list — on the structural
path this additionally uses that Python's parser maps whitespace-only
input either to a syntax error (handled by the prose fallback) or to a
module with no top-level nodes, stated here as a hypothesis on the
external parser. -/
theorem C10_empty_whitespace_empty
    (parsePy : String → Except Unit (List PyNode)) (tc : String → Nat)
    (cfg : ChunkerConfig) (metadata : Option Meta) (text : String) :
    chunk_text parsePy tc cfg "" metadata = [] ∧
    ((∀ c ∈ text.data, isSpaceChar c = true) →
      (∀ body, parsePy text = Except.ok body → body = []) →
      chunk_text parsePy tc cfg text metadata = []) := by
  constructor
  · simp [chunk_text]
  · intro hws hparse
    by_cases htext : text = ""
    · simp [chunk_text, htext]
    · have hprose : chunkProse tc cfg text (metadata.getD []) = [] := by
        simp only [chunkProse, prosePieces]
        rw [stageA_all_space text hws]
        simp [stageB, packLoop, toChunks]
      simp only [chunk_text, if_neg htext]
      by_cases hcode :
          (langIn (metadata.getD [])
              ["py", "js", "java", "cpp", "python", "javascript"] &&
            langIn (metadata.getD []) ["py", "python"]) = true
      · rw [if_pos hcode]
        simp only [chunkPythonCode]
        cases hparse2 : parsePy text with
        | error e => exact hprose
        | ok body =>
          have hbody := hparse body hparse2
          subst hbody
          simp [chunkCodeLoop]
      · rw [if_neg hcode]
        exact hprose

/-- Witness for C10 at the empty text and a two-space text, with a parser
that returns an empty module for any input. -/
theorem C10_empty_whitespace_empty_witness :
    (∀ c ∈ ("  " : String).data, isSpaceChar c = true) ∧
    (∀ body, (fun _ : String =>
        (Except.ok [] : Except Unit (List PyNode))) "  " =
        Except.ok body → body = []) ∧
    chunk_text (fun _ => Except.ok []) fallbackCount defaultConfig "" none = [] ∧
    chunk_text (fun _ => Except.ok []) fallbackCount defaultConfig "  " none = [] := by
  have h1 : ∀ c ∈ ("  " : String).data, isSpaceChar c = true := by decide
  have h2 : ∀ body, (fun _ : String =>
      (Except.ok [] : Except Unit (List PyNode))) "  " =
      Except.ok body → body = [] := by
    intro body hb
    exact (Except.ok.inj hb).symm
  have hC := C10_empty_whitespace_empty (fun _ => Except.ok []) fallbackCount
    defaultConfig none "  "
  exact ⟨h1, h2, hC.1, hC.2 h1 h2⟩

end VKB


